import Mathlib

/-!
Verification of `gprotorch/kernels/fingerprint_kernels/base_fingerprint_kernel.py`.

The source computes a Tanimoto similarity matrix between two batches of
fingerprint (bit/count) vectors:

* `BitDistance._sim(x1, x2, postprocess, x1_eq_x2, metric)` — rejects every
  metric other than `'tanimoto'`; otherwise computes row-wise squared norms,
  the cross dot-product matrix, the elementwise quotient
  `cross / (norm1 + norm2 - cross)`, patches the diagonal to exactly 1 when
  `x1_eq_x2` holds and neither input tracks gradients, clamps negative
  entries to 0 and optionally applies a postprocess function.
* `BitKernel.covar_dist(x1, x2, last_dim_is_batch, ...)` — optionally
  reshapes the inputs (transpose of the last two axes plus a trailing
  singleton axis), computes `x1_eq_x2` by full tensor equality
  (`torch.equal`), caches a `BitDistance` module keyed by the identity of
  the postprocess function, and delegates to `_sim`.

Value-level model: the non-batched (2-D, `n x d`) path, with matrices as
`List (List ℚ)` of rational entries (exact arithmetic; rounding is not
modelled) and an explicit IEEE-style value type `FpVal` so that the `0/0`
(NaN) and `x/0` (infinity) behaviour of the division and of `clamp_min_(0)`
is captured.  The `requires_grad` flags of the two inputs are passed as
explicit booleans.

Shape-level model: the shapes of torch tensors as `List ℕ` together with
the shape semantics of every tensor operation `_sim`/`covar_dist` performs
(`sum` with and without `keepdim`, `squeeze(-1)`, `transpose(-2,-1)`,
`unsqueeze(-1)`, broadcasting, batched `matmul`), used for the batched
claims about output shapes.
-/

/-- IEEE-style value resulting from floating-point operations on exact
rational inputs: a finite (exact) value, NaN, or a signed infinity. -/
inductive FpVal where
  | fin (q : ℚ)
  | nan
  | inf (pos : Bool)
  deriving DecidableEq, Repr

/-- Floating-point division of two finite exact values, as performed by
`cross_product/denominator`: `0/0` is NaN, `a/0` for `a ≠ 0` is a signed
infinity, otherwise the exact quotient. -/
def fdiv (a b : ℚ) : FpVal :=
  if b = 0 then (if a = 0 then FpVal.nan else FpVal.inf (0 < a)) else FpVal.fin (a / b)

/-- `clamp_min_(0)` on one entry: finite values are clamped to `max · 0`,
NaN propagates, `+∞` is kept and `-∞` becomes `0`. -/
def clampMin0 : FpVal → FpVal
  | FpVal.fin q => FpVal.fin (max q 0)
  | FpVal.nan => FpVal.nan
  | FpVal.inf b => if b then FpVal.inf true else FpVal.fin 0

/-- Dot product of two rows, `(x * y).sum` (the entries of
`x1.matmul(x2.transpose(-2, -1))`). -/
def dot (x y : List ℚ) : ℚ := (List.zipWith (fun a b => a * b) x y).sum

/-- Squared L2 norm of one row, `row.pow(2).sum(dim=-1)`. -/
def sqNorm (x : List ℚ) : ℚ := dot x x

/-- In-place `res.diagonal(dim1=-2, dim2=-1).fill_(1)` on a rectangular
matrix: entry `(i, j)` becomes `1` exactly when `i = j`. -/
def fillDiagOne (r : List (List FpVal)) : List (List FpVal) :=
  (List.range r.length).map (fun i =>
    (List.range (r.getD i []).length).map (fun j =>
      if i = j then FpVal.fin 1 else (r.getD i []).getD j FpVal.nan))

/-- The tanimoto branch of `BitDistance._sim` (source lines 45-68) on 2-D
inputs: `x1_norm` is the list of squared row norms of `x1`; `x2_norm`
reuses `x1_norm` when `x1_eq_x2` holds and neither input requires grad
(`g1`, `g2`), else is recomputed from `x2`; entry `(i, j)` of the raw
result is `cross[i][j] / (x1_norm[i] + x2_norm[j] - cross[i][j])`; the
diagonal is filled with exactly 1 under the same equality-and-no-grad
condition; finally every entry is clamped from below at 0. -/
def tanimotoMatrix (x1 x2 : List (List ℚ)) (x1_eq_x2 g1 g2 : Bool) :
    List (List FpVal) :=
  let x1_norm := x1.map sqNorm
  let x2_norm := if x1_eq_x2 && !g1 && !g2 then x1_norm else x2.map sqNorm
  let raw := (List.range x1.length).map (fun i =>
    (List.range x2.length).map (fun j =>
      fdiv (dot (x1.getD i []) (x2.getD j []))
        (x1_norm.getD i 0 + x2_norm.getD j 0 - dot (x1.getD i []) (x2.getD j []))))
  let filled := if x1_eq_x2 && !g1 && !g2 then fillDiagOne raw else raw
  filled.map (fun row => row.map clampMin0)

/-- The error message of source line 42 (the apostrophes are written with
character escapes). -/
def simErrMsg : String :=
  "Similarity metric not supported. Available options are \x27tanimoto\x27"

/-- `BitDistance._sim` (source lines 19-69): raise the unsupported-metric
error for any metric outside `['tanimoto']` before any computation;
otherwise compute the tanimoto matrix and apply the stored postprocess
function when the `postprocess` flag is set.  (The guard makes the inner
`if metric == 'tanimoto'` branch exhaustive, so the model collapses the two
tests into one.) -/
def BitDistance_sim (metric : String) (x1 x2 : List (List ℚ))
    (postprocess : Bool) (pp : List (List FpVal) → List (List FpVal))
    (x1_eq_x2 g1 g2 : Bool) : Except String (List (List FpVal)) :=
  if metric ∉ (["tanimoto"] : List String) then
    Except.error simErrMsg
  else
    let res := tanimotoMatrix x1 x2 x1_eq_x2 g1 g2
    Except.ok (if postprocess then pp res else res)

/-- gpytorch's `default_postprocess_script`, the identity map.
Modelled from the spec: the postprocess function is "identity by default";
its definition lives in the gpytorch dependency, not under `src/`. -/
def default_postprocess_script : List (List FpVal) → List (List FpVal) :=
  fun r => r

/-- The default value of the `metric` argument of `BitKernel.__init__`
(source line 91): the empty string. -/
def BitKernel_default_metric : String := ""

/-- `BitKernel.covar_dist` (source lines 98-144) on the non-batched path
(`last_dim_is_batch = False`; the reshaping path is modelled at shape
level): computes `x1_eq_x2` by full tensor equality and delegates to
`_sim` with `postprocess = True` and the default (identity) postprocess
script.  The `requires_grad` flags of the two inputs are `g1`, `g2`. -/
def BitKernel_covar_dist (metric : String) (x1 x2 : List (List ℚ))
    (g1 g2 : Bool) : Except String (List (List FpVal)) :=
  BitDistance_sim metric x1 x2 true default_postprocess_script
    (decide (x1 = x2)) g1 g2

/-- `BitKernel.forward` (source lines 95-96) just calls `covar_dist`. -/
def BitKernel_forward (metric : String) (x1 x2 : List (List ℚ))
    (g1 g2 : Bool) : Except String (List (List FpVal)) :=
  BitKernel_covar_dist metric x1 x2 g1 g2

/-- Entry `(i, j)` of a similarity matrix, with NaN as the out-of-range
default. -/
def entryFp (r : List (List FpVal)) (i j : ℕ) : FpVal :=
  (r.getD i []).getD j FpVal.nan

/-- Entry `(i, j)` of the result of a `covar_dist` call. -/
def entryOf (e : Except String (List (List FpVal))) (i j : ℕ) : FpVal :=
  match e with
  | Except.ok r => entryFp r i j
  | Except.error _ => FpVal.nan

/-!
### Cache model

`covar_dist` keeps one cached `BitDistance` instance (source lines
138-140): it rebuilds the instance exactly when none exists yet
(gpytorch's `Kernel.__init__` sets `self.distance_module = None`, and
`None` is falsy) or when the `_postprocess` stored in the cached instance
differs, by Python object identity (default `!=`), from the requested
`dist_postprocess_func`.  Function identities are modelled as natural
numbers, the cache as `Option ℕ`.
-/

/-- The rebuild condition `not self.distance_module or
self.distance_module._postprocess != dist_postprocess_func`. -/
def needsRebuild : Option ℕ → ℕ → Bool
  | none, _ => true
  | some p, q => p != q

/-- One `covar_dist` call's effect on the cache: returns whether a new
`BitDistance` was constructed during this call, together with the cache
after the call. -/
def cacheStep (cached : Option ℕ) (ppId : ℕ) : Bool × Option ℕ :=
  if needsRebuild cached ppId then (true, some ppId) else (false, cached)

/-!
### Shape model

Shapes of torch tensors as `List ℕ`, with the shape semantics of each
operation `_sim` and `covar_dist` perform.  `none` models a runtime shape
error.  The batched (3-D and higher) behaviour of `_sim` lives entirely in
how these primitive operations compose, exactly as in the source.
-/

/-- Result size of broadcasting one pair of aligned dimensions. -/
def bcastDim (a b : ℕ) : Option ℕ :=
  if a = b then some a else if a = 1 then some b else if b = 1 then some a else none

/-- Broadcasting of two shapes given with their dimensions reversed
(innermost first), per the numpy/torch rule: align from the innermost
dimension, a missing dimension acts like size 1. -/
def bcastRev : List ℕ → List ℕ → Option (List ℕ)
  | [], t => some t
  | a :: s, [] => some (a :: s)
  | a :: s, b :: t =>
    match bcastDim a b, bcastRev s t with
    | some d, some r => some (d :: r)
    | _, _ => none

/-- Broadcasting of two shapes. -/
def broadcastShape (s t : List ℕ) : Option (List ℕ) :=
  match bcastRev s.reverse t.reverse with
  | some r => some r.reverse
  | none => none

/-- Shape of `t.transpose(-1, -2)` / `t.transpose(-2, -1)`: swap the last
two dimensions (at least two dimensions required). -/
def transposeLast2Shape (s : List ℕ) : Option (List ℕ) :=
  match s.reverse with
  | a :: b :: rest => some ((b :: a :: rest).reverse)
  | _ => none

/-- Shape of `t.unsqueeze(-1)`: append a trailing singleton dimension. -/
def unsqueezeLastShape (s : List ℕ) : List ℕ := s ++ [1]

/-- Shape of `t.sum(dim=-1, keepdim=True)`: the last dimension becomes 1. -/
def sumLastKeepShape (s : List ℕ) : Option (List ℕ) :=
  match s.reverse with
  | _ :: rest => some ((1 :: rest).reverse)
  | [] => none

/-- Shape of `t.sum(dim=-1, keepdim=False)`: the last dimension is
dropped. -/
def sumLastShape (s : List ℕ) : Option (List ℕ) :=
  match s.reverse with
  | _ :: rest => some rest.reverse
  | [] => none

/-- Shape of `t.squeeze(-1)`: the last dimension is removed when it has
size 1, otherwise the shape is unchanged. -/
def squeezeLastShape (s : List ℕ) : List ℕ :=
  match s.reverse with
  | 1 :: rest => rest.reverse
  | _ => s

/-- Shape of `torch.matmul` for operands with at least two dimensions
each (the only uses in the source): the batch dimensions broadcast and the
last two dimensions matrix-multiply. -/
def matmulShape (s t : List ℕ) : Option (List ℕ) :=
  match s.reverse, t.reverse with
  | k1 :: n :: sb, m :: k2 :: tb =>
    if k1 = k2 then
      match bcastRev sb tb with
      | some rb => some (rb.reverse ++ [n, m])
      | none => none
    else none
  | _, _ => none

/-- Shape semantics of the tanimoto branch of `BitDistance._sim` (source
lines 49-69): `x1_norm = x1.pow(2).sum(-1, keepdim=True)`; `x2_norm`
either reuses `x1_norm` (equality-and-no-grad fast path) or is
`x2.pow(2).sum(-1, keepdim=False)`; `cross = x1.matmul(x2.transpose(-2,-1))`;
`denominator = x1_norm + x2_norm.squeeze(-1) - cross`; `res = cross /
denominator`; the in-place diagonal fill (which needs at least two
dimensions) and `clamp_min_` keep the shape. -/
def simShape (sx1 sx2 : List ℕ) (x1_eq_x2 g1 g2 : Bool) : Option (List ℕ) :=
  match sumLastKeepShape sx1 with
  | none => none
  | some x1n =>
    match (if x1_eq_x2 && !g1 && !g2 then some x1n else sumLastShape sx2) with
    | none => none
    | some x2n =>
      match transposeLast2Shape sx2 with
      | none => none
      | some sx2t =>
        match matmulShape sx1 sx2t with
        | none => none
        | some cross =>
          match broadcastShape x1n (squeezeLastShape x2n) with
          | none => none
          | some t1 =>
            match broadcastShape t1 cross with
            | none => none
            | some denom =>
              match broadcastShape cross denom with
              | none => none
              | some res =>
                if x1_eq_x2 && !g1 && !g2 then
                  if 2 ≤ res.length then some res else none
                else some res

/-- Shape semantics of `BitKernel.covar_dist` (source lines 127-142,
tanimoto metric): when `last_dim_is_batch` is set, each input is first
transposed in its last two axes and given a trailing singleton axis; then
`_sim` runs.  `x1_eq_x2` is `torch.equal(x1, x2)` (so it can only be true
when the two shapes coincide); `g1`, `g2` are the `requires_grad` flags. -/
def covarDistShape (sx1 sx2 : List ℕ) (lastDimIsBatch x1_eq_x2 g1 g2 : Bool) :
    Option (List ℕ) :=
  let p1 := if lastDimIsBatch then
      (transposeLast2Shape sx1).map unsqueezeLastShape else some sx1
  let p2 := if lastDimIsBatch then
      (transposeLast2Shape sx2).map unsqueezeLastShape else some sx2
  match p1, p2 with
  | some a, some b => simShape a b x1_eq_x2 g1 g2
  | _, _ => none

/-!
### Helper lemmas
-/

theorem getD_range_map {α : Type} (f : ℕ → α) (n i : ℕ) (d : α) (h : i < n) :
    ((List.range n).map f).getD i d = f i := by
  simp [List.getD_eq_getElem?_getD, List.getElem?_map, List.getElem?_range h]

theorem getD_map_of_lt {α β : Type} (f : α → β) (l : List α) (i : ℕ) (d : β)
    (d' : α) (h : i < l.length) : (l.map f).getD i d = f (l.getD i d') := by
  simp [List.getD_eq_getElem?_getD, List.getElem?_map, List.getElem?_eq_getElem h]

theorem dot_nil_right (x : List ℚ) : dot x [] = 0 := by cases x <;> rfl

theorem dot_cons (a b : ℚ) (x y : List ℚ) :
    dot (a :: x) (b :: y) = a * b + dot x y := rfl

theorem sqNorm_nil : sqNorm ([] : List ℚ) = 0 := rfl

theorem sqNorm_cons (a : ℚ) (x : List ℚ) :
    sqNorm (a :: x) = a * a + sqNorm x := rfl

theorem dot_comm : ∀ x y : List ℚ, dot x y = dot y x := by
  intro x
  induction x with
  | nil => intro y; simp [dot, dot_nil_right]
  | cons a x ih =>
    intro y
    cases y with
    | nil => simp [dot, dot_nil_right]
    | cons b y => rw [dot_cons, dot_cons, ih, mul_comm]

theorem dot_nonneg : ∀ x y : List ℚ, (∀ a ∈ x, 0 ≤ a) → (∀ b ∈ y, 0 ≤ b) →
    0 ≤ dot x y := by
  intro x
  induction x with
  | nil => intro y _ _; simp [dot]
  | cons a x ih =>
    intro y hx hy
    cases y with
    | nil => rw [dot_nil_right]
    | cons b y =>
      rw [dot_cons]
      have h1 : 0 ≤ a * b :=
        mul_nonneg (hx a (by simp)) (hy b (by simp))
      have h2 : 0 ≤ dot x y :=
        ih y (fun c hc => hx c (by simp [hc])) (fun c hc => hy c (by simp [hc]))
      linarith

theorem sqNorm_nonneg (x : List ℚ) : 0 ≤ sqNorm x := by
  induction x with
  | nil => simp [sqNorm_nil]
  | cons a x ih =>
    rw [sqNorm_cons]
    have := mul_self_nonneg a
    linarith

theorem sqNorm_pos (x : List ℚ) (a : ℚ) (ha : a ∈ x) (hne : a ≠ 0) :
    0 < sqNorm x := by
  induction x with
  | nil => cases ha
  | cons b x ih =>
    rw [sqNorm_cons]
    rcases List.mem_cons.mp ha with h | h
    · subst h
      have h1 : 0 < a * a := mul_self_pos.mpr hne
      have h2 := sqNorm_nonneg x
      linarith
    · have h1 := ih h
      have h2 := mul_self_nonneg b
      linarith

theorem two_mul_dot_le : ∀ x y : List ℚ, 2 * dot x y ≤ sqNorm x + sqNorm y := by
  intro x
  induction x with
  | nil =>
    intro y
    have := sqNorm_nonneg y
    simp [dot, sqNorm_nil]; linarith
  | cons a x ih =>
    intro y
    cases y with
    | nil =>
      rw [dot_nil_right, sqNorm_nil]
      have h1 := sqNorm_nonneg (a :: x)
      linarith
    | cons b y =>
      rw [dot_cons, sqNorm_cons, sqNorm_cons]
      have h1 := ih y
      have h2 : 0 ≤ (a - b) * (a - b) := mul_self_nonneg _
      nlinarith [h2]

theorem getD_map_sqNorm (x : List (List ℚ)) (j : ℕ) :
    (x.map sqNorm).getD j 0 = sqNorm (x.getD j []) := by
  rcases Nat.lt_or_ge j x.length with h | h
  · exact getD_map_of_lt _ _ _ _ _ h
  · have h1 : x.length ≤ j := h
    simp [List.getD_eq_getElem?_getD, List.getElem?_eq_none (by simpa using h1),
      List.getElem?_eq_none (l := x) (by simpa using h1), sqNorm_nil]

theorem tanimotoMatrix_length (x1 x2 : List (List ℚ)) (f g1 g2 : Bool) :
    (tanimotoMatrix x1 x2 f g1 g2).length = x1.length := by
  unfold tanimotoMatrix fillDiagOne
  by_cases h : (f && !g1 && !g2) = true <;> simp [h]

theorem tanimotoMatrix_row_length (x1 x2 : List (List ℚ)) (f g1 g2 : Bool)
    (i : ℕ) (hi : i < x1.length) :
    ((tanimotoMatrix x1 x2 f g1 g2).getD i []).length = x2.length := by
  unfold tanimotoMatrix fillDiagOne
  cases hF : (f && !g1 && !g2)
  · simp only [hF, Bool.false_eq_true, if_false]
    rw [getD_map_of_lt (fun row => row.map clampMin0) _ i [] [] (by simp [hi])]
    rw [getD_range_map _ _ _ _ hi]
    simp
  · simp only [hF, if_true]
    rw [getD_map_of_lt (fun row => row.map clampMin0) _ i [] [] (by simp [hi])]
    rw [getD_range_map _ _ _ _ (by simp [hi])]
    rw [getD_range_map _ _ _ _ hi]
    simp

theorem tanimotoMatrix_entry (x1 x2 : List (List ℚ)) (f g1 g2 : Bool)
    (i j : ℕ) (hi : i < x1.length) (hj : j < x2.length) :
    entryFp (tanimotoMatrix x1 x2 f g1 g2) i j =
      clampMin0 (if (f && !g1 && !g2) = true ∧ i = j then FpVal.fin 1
        else fdiv (dot (x1.getD i []) (x2.getD j []))
          (sqNorm (x1.getD i []) +
            (if (f && !g1 && !g2) = true then sqNorm (x1.getD j [])
             else sqNorm (x2.getD j [])) -
            dot (x1.getD i []) (x2.getD j []))) := by
  unfold entryFp tanimotoMatrix fillDiagOne
  cases hF : (f && !g1 && !g2)
  · simp only [hF, Bool.false_eq_true, if_false, false_and]
    rw [getD_map_of_lt (fun row => row.map clampMin0) _ i [] [] (by simp [hi])]
    rw [getD_range_map _ _ _ _ hi]
    rw [getD_map_of_lt clampMin0 _ j FpVal.nan FpVal.nan (by simp [hj])]
    rw [getD_range_map _ _ _ _ hj]
    rw [getD_map_sqNorm x1 i, getD_map_sqNorm x2 j]
  · simp only [hF, if_true, true_and]
    rw [getD_map_of_lt (fun row => row.map clampMin0) _ i [] [] (by simp [hi])]
    rw [getD_range_map _ _ _ _ (by simp [hi])]
    rw [getD_range_map
      (fun i => (List.range x2.length).map (fun j =>
        fdiv (dot (x1.getD i []) (x2.getD j []))
          ((x1.map sqNorm).getD i 0 + (x1.map sqNorm).getD j 0 -
            dot (x1.getD i []) (x2.getD j [])))) x1.length i [] hi]
    rw [getD_map_of_lt clampMin0 _ j FpVal.nan FpVal.nan (by simp [hj])]
    rw [getD_range_map _ _ _ _ (by simp [hj])]
    by_cases hij : i = j
    · simp [hij]
    · simp only [hij, if_false]
      rw [getD_range_map _ _ _ _ hj]
      rw [getD_map_sqNorm x1 i, getD_map_sqNorm x1 j]

theorem tanimotoMatrix_entry_oob (x1 x2 : List (List ℚ)) (f g1 g2 : Bool)
    (i j : ℕ) (h : x1.length ≤ i ∨ x2.length ≤ j) :
    entryFp (tanimotoMatrix x1 x2 f g1 g2) i j = FpVal.nan := by
  rcases Nat.lt_or_ge i x1.length with hi | hi
  · rcases h with h | h
    · omega
    · have hrow := tanimotoMatrix_row_length x1 x2 f g1 g2 i hi
      unfold entryFp
      rw [List.getD_eq_getElem?_getD, List.getElem?_eq_none (by omega)]
      rfl
  · have hlen := tanimotoMatrix_length x1 x2 f g1 g2
    unfold entryFp
    rw [List.getD_eq_getElem?_getD (tanimotoMatrix x1 x2 f g1 g2),
      List.getElem?_eq_none (by omega)]
    rfl

theorem covar_tanimoto_eq (x1 x2 : List (List ℚ)) (g1 g2 : Bool) :
    BitKernel_covar_dist "tanimoto" x1 x2 g1 g2 =
      Except.ok (tanimotoMatrix x1 x2 (decide (x1 = x2)) g1 g2) := rfl

theorem entryOf_ok (r : List (List FpVal)) (i j : ℕ) :
    entryOf (Except.ok r) i j = entryFp r i j := rfl

/-- C3: the similarity call fails with the unsupported-metric error exactly
when the requested metric is not in the supported set, the error message
enumerates the supported tags, and otherwise the call returns a result.
The error is returned by the first statement of `_sim`, before any
computation. -/
theorem claim_C3_unsupported_metric (metric : String) (x1 x2 : List (List ℚ))
    (post : Bool) (pp : List (List FpVal) → List (List FpVal)) (f g1 g2 : Bool) :
    (BitDistance_sim metric x1 x2 post pp f g1 g2 = Except.error simErrMsg ↔
      metric ≠ "tanimoto")
    ∧ ((∃ r, BitDistance_sim metric x1 x2 post pp f g1 g2 = Except.ok r) ↔
      metric = "tanimoto")
    ∧ simErrMsg =
      "Similarity metric not supported. Available options are \x27tanimoto\x27" := by
  unfold BitDistance_sim
  by_cases h : metric = "tanimoto" <;> simp [h, simErrMsg]

/-- C10: with the default metric (the empty string), every forward /
covar_dist call raises the unsupported-metric RuntimeError, and a call
succeeds exactly when the metric is the string tanimoto. -/
theorem claim_C10_default_metric_raises (metric : String)
    (x1 x2 : List (List ℚ)) (g1 g2 : Bool) :
    BitKernel_forward BitKernel_default_metric x1 x2 g1 g2 =
      Except.error simErrMsg
    ∧ BitKernel_forward metric x1 x2 g1 g2 =
      BitKernel_covar_dist metric x1 x2 g1 g2
    ∧ ((∃ r, BitKernel_forward metric x1 x2 g1 g2 = Except.ok r) ↔
      metric = "tanimoto") := by
  refine ⟨rfl, rfl, ?_⟩
  unfold BitKernel_forward BitKernel_covar_dist BitDistance_sim
  by_cases h : metric = "tanimoto" <;> simp [h]

/-- C7: the cached engine is rebuilt exactly when no cached instance exists
or the requested postprocess function differs by identity from the cached
one; a second call with the same function builds nothing, a call with a
different function rebuilds. -/
theorem claim_C7_engine_cache (st : Option ℕ) (p q : ℕ) (hq : q ≠ p) :
    ((cacheStep st p).1 = true ↔ (st = none ∨ st ≠ some p))
    ∧ (cacheStep (cacheStep st p).2 p).1 = false
    ∧ (cacheStep (cacheStep st p).2 q).1 = true := by
  unfold cacheStep needsRebuild
  rcases st with _ | p'
  · simp [bne_iff_ne, Ne.symm hq]
  · by_cases h : p' = p
    · subst h
      simp [bne_iff_ne, Ne.symm hq]
    · simp [bne_iff_ne, h, Ne.symm hq]

theorem claim_C7_engine_cache_witness :
    (((cacheStep none 0).1 = true ↔ ((none : Option ℕ) = none ∨ (none : Option ℕ) ≠ some 0))
    ∧ (cacheStep (cacheStep none 0).2 0).1 = false
    ∧ (cacheStep (cacheStep none 0).2 1).1 = true) :=
  claim_C7_engine_cache none 0 1 (by decide)

/-- C8 (code bug): in a batched call with a single point in x2 the result
shape is not the claimed `[..., N, M]`: for `x1` of shape `(2, 3, 4)` and
`x2` of shape `(2, 1, 4)` the `keepdim=False` + `squeeze(-1)` handling of
`x2_norm` makes the denominator broadcast to `(2, 3, 2)`, so the returned
matrix has shape `(2, 3, 2)` instead of `(2, 3, 1)`. -/
theorem claim_C8_batched_shape_bug :
    covarDistShape [2, 3, 4] [2, 1, 4] false false false false = some [2, 3, 2]
    ∧ ([2, 3, 2] : List ℕ) ≠ [2, 3, 1] := by
  exact ⟨by decide, by decide⟩

/-- C2 counterexample: the diagonal is NOT exactly 1 for every pair of
element-wise identical inputs: when an input tracks gradients the diagonal
fill of line 64 is skipped, and for `x1 = x2 = [[0, 0]]` with
`x1.requires_grad` the single diagonal entry is the 0/0 quotient NaN, not
1. -/
theorem claim_C2_counterexample :
    BitKernel_covar_dist "tanimoto" [[0, 0]] [[0, 0]] true false =
      Except.ok [[FpVal.nan]]
    ∧ FpVal.nan ≠ FpVal.fin 1 := by
  refine ⟨?_, by decide⟩
  simp [BitKernel_covar_dist, BitDistance_sim, simErrMsg,
    default_postprocess_script, tanimotoMatrix, fillDiagOne, dot, sqNorm,
    fdiv, clampMin0, List.range_succ]

/-- C2 (amended): when the two inputs are element-wise identical (the
equality `torch.equal` computes in `covar_dist`) and no gradient tracking
is active on either input, every diagonal entry of the returned similarity
matrix is exactly 1: the code overwrites the diagonal with a literal 1. -/
theorem claim_C2_diagonal_exactly_one (x1 x2 : List (List ℚ)) (i : ℕ)
    (heq : x1 = x2) (hi : i < x1.length) :
    ∃ r, BitKernel_covar_dist "tanimoto" x1 x2 false false = Except.ok r ∧
      entryFp r i i = FpVal.fin 1 := by
  subst heq
  refine ⟨_, covar_tanimoto_eq x1 x1 false false, ?_⟩
  rw [tanimotoMatrix_entry x1 x1 _ false false i i hi hi]
  norm_num [clampMin0]

theorem claim_C2_diagonal_exactly_one_witness :
    ∃ r, BitKernel_covar_dist "tanimoto" [[1, 0]] [[1, 0]] false false =
      Except.ok r ∧ entryFp r 0 0 = FpVal.fin 1 :=
  claim_C2_diagonal_exactly_one [[1, 0]] [[1, 0]] 0 rfl (by decide)

theorem getD_mem {α : Type} (l : List α) (i : ℕ) (d : α) (h : i < l.length) :
    l.getD i d ∈ l := by
  rw [List.getD_eq_getElem?_getD, List.getElem?_eq_getElem h]
  exact List.getElem_mem h

theorem clamp_fdiv_eq (r s : List ℚ)
    (h1 : ∀ a ∈ r, 0 ≤ a) (h2 : ∀ a ∈ s, 0 ≤ a) (hz : ∃ a ∈ r, a ≠ 0) :
    clampMin0 (fdiv (dot r s) (sqNorm r + sqNorm s - dot r s)) =
      FpVal.fin (dot r s / (sqNorm r + sqNorm s - dot r s))
    ∧ 0 ≤ dot r s / (sqNorm r + sqNorm s - dot r s)
    ∧ dot r s / (sqNorm r + sqNorm s - dot r s) ≤ 1 := by
  obtain ⟨a, ha, hane⟩ := hz
  have hc : 0 ≤ dot r s := dot_nonneg r s h1 h2
  have hn1 : 0 < sqNorm r := sqNorm_pos r a ha hane
  have hn2 : 0 ≤ sqNorm s := sqNorm_nonneg s
  have h2c : 2 * dot r s ≤ sqNorm r + sqNorm s := two_mul_dot_le r s
  have hd : 0 < sqNorm r + sqNorm s - dot r s := by linarith
  have hq0 : 0 ≤ dot r s / (sqNorm r + sqNorm s - dot r s) :=
    div_nonneg hc hd.le
  have hq1 : dot r s / (sqNorm r + sqNorm s - dot r s) ≤ 1 := by
    rw [div_le_one hd]; linarith
  refine ⟨?_, hq0, hq1⟩
  unfold fdiv
  rw [if_neg hd.ne']
  simp [clampMin0, max_eq_left hq0]

/-- C1: for the tanimoto metric the similarity of a pair of rows equals
`<x,y> / (norm(x)^2 + norm(y)^2 - <x,y>)` (stated for distinct,
entrywise-nonnegative inputs whose rows are not all zero, so that no
diagonal patch, clamp or 0/0 is involved), and in particular the two
concrete examples from the spec hold exactly. -/
theorem claim_C1_tanimoto_formula (x1 x2 : List (List ℚ)) (g1 g2 : Bool)
    (i j : ℕ) (hne : x1 ≠ x2)
    (h1 : ∀ a ∈ x1.getD i [], 0 ≤ a) (h2 : ∀ a ∈ x2.getD j [], 0 ≤ a)
    (hz : ∃ a ∈ x1.getD i [], a ≠ 0)
    (hi : i < x1.length) (hj : j < x2.length) :
    entryOf (BitKernel_covar_dist "tanimoto" x1 x2 g1 g2) i j =
      FpVal.fin (dot (x1.getD i []) (x2.getD j []) /
        (sqNorm (x1.getD i []) + sqNorm (x2.getD j []) -
          dot (x1.getD i []) (x2.getD j [])))
    ∧ BitKernel_covar_dist "tanimoto" [[1, 1, 0, 0]] [[1, 0, 0, 0]] false false =
        Except.ok [[FpVal.fin (1 / 2)]]
    ∧ BitKernel_covar_dist "tanimoto" [[1, 1, 0, 0]] [[0, 0, 1, 1]] false false =
        Except.ok [[FpVal.fin 0]] := by
  refine ⟨?_, ?_, ?_⟩
  · rw [covar_tanimoto_eq, entryOf_ok,
      tanimotoMatrix_entry x1 x2 _ g1 g2 i j hi hj]
    rw [decide_eq_false hne]
    simp only [Bool.false_and, Bool.false_eq_true, false_and, if_false]
    exact (clamp_fdiv_eq (x1.getD i []) (x2.getD j []) h1 h2 hz).1
  · simp [BitKernel_covar_dist, BitDistance_sim, simErrMsg,
      default_postprocess_script, tanimotoMatrix, fillDiagOne, dot, sqNorm,
      fdiv, clampMin0, List.range_succ]
    norm_num
  · simp [BitKernel_covar_dist, BitDistance_sim, simErrMsg,
      default_postprocess_script, tanimotoMatrix, fillDiagOne, dot, sqNorm,
      fdiv, clampMin0, List.range_succ]

theorem claim_C1_tanimoto_formula_witness :
    entryOf (BitKernel_covar_dist "tanimoto" [[1, 1, 0, 0]] [[1, 0, 0, 0]]
        false false) 0 0 =
      FpVal.fin (dot ([[(1 : ℚ), 1, 0, 0]].getD 0 []) ([[(1 : ℚ), 0, 0, 0]].getD 0 []) /
        (sqNorm ([[(1 : ℚ), 1, 0, 0]].getD 0 []) + sqNorm ([[(1 : ℚ), 0, 0, 0]].getD 0 []) -
          dot ([[(1 : ℚ), 1, 0, 0]].getD 0 []) ([[(1 : ℚ), 0, 0, 0]].getD 0 [])))
    ∧ BitKernel_covar_dist "tanimoto" [[1, 1, 0, 0]] [[1, 0, 0, 0]] false false =
        Except.ok [[FpVal.fin (1 / 2)]]
    ∧ BitKernel_covar_dist "tanimoto" [[1, 1, 0, 0]] [[0, 0, 1, 1]] false false =
        Except.ok [[FpVal.fin 0]] :=
  claim_C1_tanimoto_formula [[1, 1, 0, 0]] [[1, 0, 0, 0]] false false 0 0
    (by decide) (by decide) (by decide) (by decide) (by decide) (by decide)

/-- C4: for entrywise-nonnegative inputs with no all-zero rows, every
entry of the returned similarity matrix is a finite value in `[0, 1]`.
(The code clamps only from below; the upper bound holds mathematically.) -/
theorem claim_C4_entries_in_unit_interval (x1 x2 : List (List ℚ))
    (g1 g2 : Bool) (i j : ℕ)
    (h1 : ∀ row ∈ x1, ∀ a ∈ row, 0 ≤ a)
    (h2 : ∀ row ∈ x2, ∀ a ∈ row, 0 ≤ a)
    (hz1 : ∀ row ∈ x1, ∃ a ∈ row, a ≠ 0)
    (hz2 : ∀ row ∈ x2, ∃ a ∈ row, a ≠ 0)
    (hi : i < x1.length) (hj : j < x2.length) :
    ∃ q : ℚ, entryOf (BitKernel_covar_dist "tanimoto" x1 x2 g1 g2) i j =
      FpVal.fin q ∧ 0 ≤ q ∧ q ≤ 1 := by
  rw [covar_tanimoto_eq, entryOf_ok,
    tanimotoMatrix_entry x1 x2 _ g1 g2 i j hi hj]
  have hm1 : x1.getD i [] ∈ x1 := getD_mem x1 i [] hi
  have hm2 : x2.getD j [] ∈ x2 := getD_mem x2 j [] hj
  by_cases hcond : ((decide (x1 = x2) && !g1 && !g2) = true ∧ i = j)
  · rw [if_pos hcond]
    exact ⟨1, by norm_num [clampMin0], by norm_num, by norm_num⟩
  · rw [if_neg hcond]
    by_cases hfl : (decide (x1 = x2) && !g1 && !g2) = true
    · have hx : x1 = x2 := by
        have := hfl
        simp only [Bool.and_eq_true, decide_eq_true_eq] at this
        exact this.1.1
      rw [if_pos hfl]
      have hrow : x1.getD j [] = x2.getD j [] := by rw [hx]
      rw [hrow]
      obtain ⟨heq, hq0, hq1⟩ := clamp_fdiv_eq (x1.getD i []) (x2.getD j [])
        (h1 _ hm1) (h2 _ hm2) (hz1 _ hm1)
      exact ⟨_, heq, hq0, hq1⟩
    · rw [if_neg hfl]
      obtain ⟨heq, hq0, hq1⟩ := clamp_fdiv_eq (x1.getD i []) (x2.getD j [])
        (h1 _ hm1) (h2 _ hm2) (hz1 _ hm1)
      exact ⟨_, heq, hq0, hq1⟩

theorem claim_C4_entries_in_unit_interval_witness :
    ∃ q : ℚ, entryOf (BitKernel_covar_dist "tanimoto" [[1, 0]] [[1, 1]]
      false false) 0 0 = FpVal.fin q ∧ 0 ≤ q ∧ q ≤ 1 :=
  claim_C4_entries_in_unit_interval [[1, 0]] [[1, 1]] false false 0 0
    (by decide) (by decide) (by decide) (by decide) (by decide) (by decide)

theorem clamp_fdiv_comm (a b : List ℚ) :
    clampMin0 (fdiv (dot a b) (sqNorm a + sqNorm b - dot a b)) =
    clampMin0 (fdiv (dot b a) (sqNorm b + sqNorm a - dot b a)) := by
  rw [dot_comm b a, add_comm (sqNorm b) (sqNorm a)]

/-- C5: tanimoto similarity is symmetric under exact arithmetic: entry
`(i, j)` of `covar_dist(x1, x2)` equals entry `(j, i)` of
`covar_dist(x2, x1)`, for all inputs and indices (out-of-range entries
agree on the default). -/
theorem claim_C5_symmetry (x1 x2 : List (List ℚ)) (g1 g2 : Bool) (i j : ℕ) :
    entryOf (BitKernel_covar_dist "tanimoto" x1 x2 g1 g2) i j =
    entryOf (BitKernel_covar_dist "tanimoto" x2 x1 g2 g1) j i := by
  rw [covar_tanimoto_eq, covar_tanimoto_eq, entryOf_ok, entryOf_ok]
  rcases Nat.lt_or_ge i x1.length with hi | hi
  · rcases Nat.lt_or_ge j x2.length with hj | hj
    · rw [tanimotoMatrix_entry x1 x2 _ g1 g2 i j hi hj,
        tanimotoMatrix_entry x2 x1 _ g2 g1 j i hj hi]
      have hfl : (decide (x2 = x1) && !g2 && !g1) =
          (decide (x1 = x2) && !g1 && !g2) := by
        cases g1 <;> cases g2 <;> simp [eq_comm]
      rw [hfl]
      by_cases hc : (decide (x1 = x2) && !g1 && !g2) = true
      · have hx : x1 = x2 := by
          simp only [Bool.and_eq_true, decide_eq_true_eq] at hc
          exact hc.1.1
        subst hx
        by_cases hij : i = j
        · simp [hc, hij]
        · have hji : ¬(j = i) := fun h => hij h.symm
          simp only [hij, hji, and_false, if_false, ite_self]
          exact clamp_fdiv_comm (x1.getD i []) (x1.getD j [])
      · simp only [hc, false_and, if_false]
        exact clamp_fdiv_comm (x1.getD i []) (x2.getD j [])
    · rw [tanimotoMatrix_entry_oob x1 x2 _ g1 g2 i j (Or.inr hj),
        tanimotoMatrix_entry_oob x2 x1 _ g2 g1 j i (Or.inl hj)]
  · rw [tanimotoMatrix_entry_oob x1 x2 _ g1 g2 i j (Or.inl hi),
      tanimotoMatrix_entry_oob x2 x1 _ g2 g1 j i (Or.inr hi)]

theorem dot_zero_left (x y : List ℚ) (h : ∀ a ∈ x, a = 0) : dot x y = 0 := by
  induction x generalizing y with
  | nil => simp [dot]
  | cons a x ih =>
    cases y with
    | nil => rw [dot_nil_right]
    | cons b y =>
      rw [dot_cons, h a (by simp), ih y (fun c hc => h c (by simp [hc]))]
      ring

theorem tanimotoMatrix_mem_row_length (x1 x2 : List (List ℚ))
    (f g1 g2 : Bool) :
    ∀ row ∈ tanimotoMatrix x1 x2 f g1 g2, row.length = x2.length := by
  intro row hrow
  obtain ⟨k, hk, hkeq⟩ := List.mem_iff_getElem.mp hrow
  have hkl : k < x1.length := by
    rw [tanimotoMatrix_length] at hk; exact hk
  have hlen := tanimotoMatrix_row_length x1 x2 f g1 g2 k hkl
  rw [List.getD_eq_getElem?_getD, List.getElem?_eq_getElem hk] at hlen
  rw [← hkeq]
  exact hlen

/-- C9 (amended): inputs with all-zero rows never make the call fail — a
complete matrix of the full size is returned — and an entry whose
denominator is the 0/0 case is NaN, EXCEPT that a diagonal entry with the
two inputs detected element-wise equal (and gradient tracking off) is
overwritten to exactly 1 by the diagonal fill. -/
theorem claim_C9_zero_rows_nan (x1 x2 : List (List ℚ)) (g1 g2 : Bool)
    (i j : ℕ) (hi : i < x1.length) (hj : j < x2.length)
    (hz1 : ∀ a ∈ x1.getD i [], a = 0) (hz2 : ∀ a ∈ x2.getD j [], a = 0) :
    ∃ r, BitKernel_covar_dist "tanimoto" x1 x2 g1 g2 = Except.ok r
      ∧ r.length = x1.length
      ∧ (∀ row ∈ r, row.length = x2.length)
      ∧ ((x1 = x2 ∧ g1 = false ∧ g2 = false ∧ i = j) →
          entryFp r i j = FpVal.fin 1)
      ∧ (¬(x1 = x2 ∧ g1 = false ∧ g2 = false ∧ i = j) →
          entryFp r i j = FpVal.nan) := by
  refine ⟨_, covar_tanimoto_eq x1 x2 g1 g2,
    tanimotoMatrix_length x1 x2 _ g1 g2,
    tanimotoMatrix_mem_row_length x1 x2 _ g1 g2, ?_, ?_⟩
  · rintro ⟨hx, hg1, hg2, hij⟩
    subst hx; subst hg1; subst hg2; subst hij
    rw [tanimotoMatrix_entry x1 x1 _ false false i i hi hi]
    norm_num [clampMin0]
  · intro hnot
    rw [tanimotoMatrix_entry x1 x2 _ g1 g2 i j hi hj]
    have hc : dot (x1.getD i []) (x2.getD j []) = 0 :=
      dot_zero_left _ _ hz1
    have hn1 : sqNorm (x1.getD i []) = 0 := dot_zero_left _ _ hz1
    have hn2 : sqNorm (x2.getD j []) = 0 := dot_zero_left _ _ hz2
    have hcond : ¬((decide (x1 = x2) && !g1 && !g2) = true ∧ i = j) := by
      rintro ⟨hfl, hij⟩
      simp only [Bool.and_eq_true, decide_eq_true_eq, Bool.not_eq_true'] at hfl
      exact hnot ⟨hfl.1.1, hfl.1.2, hfl.2, hij⟩
    rw [if_neg hcond]
    by_cases hfl : (decide (x1 = x2) && !g1 && !g2) = true
    · have hx : x1 = x2 := by
        simp only [Bool.and_eq_true, decide_eq_true_eq] at hfl
        exact hfl.1.1
      have hn1j : sqNorm (x1.getD j []) = 0 := by rw [hx]; exact hn2
      rw [if_pos hfl, hc, hn1, hn1j]
      norm_num [fdiv, clampMin0]
    · rw [if_neg hfl, hc, hn1, hn2]
      norm_num [fdiv, clampMin0]

theorem claim_C9_zero_rows_nan_witness :
    ∃ r, BitKernel_covar_dist "tanimoto" [[0, 0], [0, 0]] [[0, 0], [0, 0]]
        false false = Except.ok r
      ∧ r.length = ([[(0 : ℚ), 0], [0, 0]] : List (List ℚ)).length
      ∧ (∀ row ∈ r, row.length = ([[(0 : ℚ), 0], [0, 0]] : List (List ℚ)).length)
      ∧ (([[(0 : ℚ), 0], [0, 0]] : List (List ℚ)) = [[0, 0], [0, 0]] ∧
          false = false ∧ false = false ∧ 0 = 1 → entryFp r 0 1 = FpVal.fin 1)
      ∧ (¬(([[(0 : ℚ), 0], [0, 0]] : List (List ℚ)) = [[0, 0], [0, 0]] ∧
          false = false ∧ false = false ∧ 0 = 1) →
          entryFp r 0 1 = FpVal.nan) :=
  claim_C9_zero_rows_nan [[0, 0], [0, 0]] [[0, 0], [0, 0]] false false 0 1
    (by decide) (by decide) (by decide) (by decide)

/-- C9 counterexample: for `x1 = x2 = [[0, 0]]` the single entry has the
0/0 denominator, yet the returned matrix is `[[1.0]]` (the diagonal fill
replaces it), not NaN. -/
theorem claim_C9_counterexample :
    BitKernel_covar_dist "tanimoto" [[0, 0]] [[0, 0]] false false =
      Except.ok [[FpVal.fin 1]]
    ∧ FpVal.fin 1 ≠ FpVal.nan := ⟨rfl, by decide⟩

